import Mathlib

/-!
Verification of `scripts/make_pickle_id_to_chrposrefalt.py`: a shallow
embedding of the ID-to-coordinate resolution pipeline (record source
reader, reference scanner and filter, resolution and partition engine),
together with proofs of the specified properties.

Strings are modelled as Lean `String`s (sequences of Unicode scalar
values, matching Python `str`).  The Python string builtins used by the
script (`str.strip`, `str.lower`, `str.upper`, `str.isdigit`, `int(...)`)
are modelled below; the Unicode character tables are restricted to the
blocks named in each doc comment, which is enough to separate the ASCII
behaviour the spec describes from the Unicode behaviour Python
implements.
-/

namespace PickleMap

/-- Models Python whitespace as used by `str.strip()`: a character is
stripped iff `str.isspace()` holds for it.  Covers the ASCII whitespace
and separator control characters plus the common Unicode space
characters (NEL, NBSP, OGHAM SPACE MARK, the U+2000–U+200A block, LINE
and PARAGRAPH SEPARATOR, NARROW NBSP, MMSP, IDEOGRAPHIC SPACE). -/
def pyIsSpace (c : Char) : Bool :=
  let n := c.toNat
  n == 0x20 || n == 0x09 || n == 0x0A || n == 0x0B || n == 0x0C || n == 0x0D ||
  n == 0x1C || n == 0x1D || n == 0x1E || n == 0x1F || n == 0x85 || n == 0xA0 ||
  n == 0x1680 || (0x2000 ≤ n && n ≤ 0x200A) || n == 0x2028 || n == 0x2029 ||
  n == 0x202F || n == 0x205F || n == 0x3000

/-- Trim a character list on both ends, dropping characters satisfying
`pyIsSpace`; the list-level engine of `str.strip()`. -/
def trimChars (l : List Char) : List Char :=
  ((l.dropWhile pyIsSpace).reverse.dropWhile pyIsSpace).reverse

/-- Models Python `str.strip()` (no argument): remove leading and
trailing whitespace characters. -/
def pyStrip (s : String) : String := ⟨trimChars s.data⟩

/-- Models Python `str.lower()`.  Lean's `Char.toLower` maps the ASCII
uppercase letters to lowercase and leaves everything else unchanged;
this agrees with Python on every comparison against the ASCII-only
missing-value sentinels used by the script. -/
def pyLower (s : String) : String := ⟨s.data.map Char.toLower⟩

/-- Models Python `str.upper()`.  Lean's `Char.toUpper` maps the ASCII
lowercase letters to uppercase and leaves everything else unchanged;
this agrees with Python on every character whose uppercasing can produce
one of the ASCII letters A, C, G, T, which is all the script compares
against. -/
def pyUpper (s : String) : String := ⟨s.data.map Char.toUpper⟩

/-- Value of a Unicode decimal digit (category Nd), as accepted by
Python `int(...)` and counted as digits by `str.isdigit()`.  Partial
table covering the ASCII, Arabic-Indic, Extended Arabic-Indic,
Devanagari, Bengali and Fullwidth digit blocks. -/
def pyDecimalDigitValue (c : Char) : Option Nat :=
  let n := c.toNat
  if 0x30 ≤ n ∧ n ≤ 0x39 then some (n - 0x30)
  else if 0x660 ≤ n ∧ n ≤ 0x669 then some (n - 0x660)
  else if 0x6F0 ≤ n ∧ n ≤ 0x6F9 then some (n - 0x6F0)
  else if 0x966 ≤ n ∧ n ≤ 0x96F then some (n - 0x966)
  else if 0x9E6 ≤ n ∧ n ≤ 0x9EF then some (n - 0x9E6)
  else if 0xFF10 ≤ n ∧ n ≤ 0xFF19 then some (n - 0xFF10)
  else none

/-- Character-level model of Python `str.isdigit()`: true for decimal
digits (category Nd) and for digit-valued characters such as the
superscript digits U+00B2, U+00B3, U+00B9, U+2070, U+2074–U+2079 and
the subscript digits U+2080–U+2089. -/
def pyIsDigitChar (c : Char) : Bool :=
  let n := c.toNat
  (pyDecimalDigitValue c).isSome ||
  n == 0xB2 || n == 0xB3 || n == 0xB9 || n == 0x2070 ||
  (0x2074 ≤ n && n ≤ 0x2079) || (0x2080 ≤ n && n ≤ 0x2089)

/-- Models Python `str.isdigit()`: the string is nonempty and every
character is a digit character. -/
def pyIsDigit (s : String) : Bool :=
  !s.data.isEmpty && s.data.all pyIsDigitChar

/-- Digit-sequence parser for `int(...)`: a nonempty sequence of decimal
digits in which single underscores may appear between digits
(`int("1_0") = 10`, while `"_1"`, `"1_"`, `"1__0"` are rejected). -/
def parseDigitsGo (acc : Nat) : List Char → Option Nat
  | [] => some acc
  | '_' :: c :: rest =>
    match pyDecimalDigitValue c with
    | some d => parseDigitsGo (acc * 10 + d) rest
    | none => none
  | '_' :: [] => none
  | c :: rest =>
    match pyDecimalDigitValue c with
    | some d => parseDigitsGo (acc * 10 + d) rest
    | none => none

/-- Parse a digit run (with underscore separators); the first character
must be a digit. -/
def parseDigits : List Char → Option Nat
  | [] => none
  | '_' :: _ => none
  | l => parseDigitsGo 0 l

/-- Models Python `int(s)` on strings: strip surrounding whitespace,
accept an optional sign followed by a nonempty run of decimal digits
(with optional single underscore separators); anything else raises
`ValueError`, modelled as `none`. -/
def pyToInt (s : String) : Option Int :=
  match (pyStrip s).data with
  | [] => none
  | '+' :: rest => (parseDigits rest).map fun n => (n : Int)
  | '-' :: rest => (parseDigits rest).map fun n => -(n : Int)
  | l => (parseDigits l).map fun n => (n : Int)

/-- `_is_snv_allele` from the script: the allele, stripped and
uppercased, is a single character among A, C, G, T. -/
def _is_snv_allele (allele : String) : Bool :=
  let a := pyUpper (pyStrip allele)
  a.length == 1 && (a == "A" || a == "C" || a == "G" || a == "T")

/-- `_is_missing` from the script: the value, stripped and lowercased,
is empty or one of the sentinels na, n/a, nan, none. -/
def _is_missing (value : String) : Bool :=
  let v := pyLower (pyStrip value)
  v == "" || v == "na" || v == "n/a" || v == "nan" || v == "none"

/-- A reference-corpus row as produced by `csv.DictReader`: each needed
column either holds a string or is absent/`None` (missing column or
short row), modelled by `Option`. -/
structure RefRow where
  variationID : Option String
  assembly : Option String
  chromosome : Option String
  positionVCF : Option String
  referenceAllele : Option String
  alternateAllele : Option String
deriving DecidableEq, Repr

/-- The stored candidate tuple `(chrom, pos, ref.upper(), alt.upper())`. -/
abbrev Coord := String × String × String × String

/-- First-match association-list lookup; the model of Python dict
lookup (our dicts always have unique keys, as Python's do). -/
def assocLookup {K V : Type} [DecidableEq K] (k : K) : List (K × V) → Option V
  | [] => none
  | (k', v) :: rest => if k = k' then some v else assocLookup k rest

/-- Python dict assignment `d[k] = v`: replace the value in place if the
key is present, otherwise append the new binding at the end (Python
dicts preserve insertion order). -/
def dictInsert {K V : Type} [DecidableEq K] (k : K) (v : V) : List (K × V) → List (K × V)
  | [] => [(k, v)]
  | (k', v') :: rest => if k = k' then (k, v) :: rest else (k', v') :: dictInsert k v rest

/-- Per-identifier candidate dictionary: coordinate-key string to tuple. -/
abbrev InnerMap := List (String × Coord)

/-- The `candidates` dictionary: VariationID to its candidate map. -/
abbrev CandMap := List (Int × InnerMap)

/-- The composite key `f"\x7bchrom\x7d_\x7bpos\x7d_\x7bref.upper()\x7d_\x7balt.upper()\x7d"`
as built on line 139 of the script (here from the already-uppercased
stored tuple). -/
def keyOfCoord (t : Coord) : String :=
  t.1 ++ "_" ++ t.2.1 ++ "_" ++ t.2.2.1 ++ "_" ++ t.2.2.2

/-- `candidates.setdefault(variation_id, dict())[key] = tup`: find the
identifier's inner dict (creating an empty one at the end if absent) and
assign the key. -/
def registerCandidate (vid : Int) (key : String) (t : Coord) : CandMap → CandMap
  | [] => [(vid, [(key, t)])]
  | (v, inner) :: rest =>
    if vid = v then (v, dictInsert key t inner) :: rest
    else (v, inner) :: registerCandidate vid key t rest

/-- Lines 127–140 of the script: the filtering stages applied to a row
after the identifier has parsed, been found wanted, and passed the
assembly filter.  Returns the registered `(key, tuple)` on success. -/
def afterAssembly (row : RefRow) : Option (String × Coord) :=
  let chrom := pyStrip (row.chromosome.getD "")
  let pos := pyStrip (row.positionVCF.getD "")
  let ref := pyStrip (row.referenceAllele.getD "")
  let alt := pyStrip (row.alternateAllele.getD "")
  if _is_missing chrom || _is_missing pos || _is_missing ref || _is_missing alt then none
  else if !pyIsDigit pos then none
  else if !(_is_snv_allele ref && _is_snv_allele alt) then none
  else
    let refU := pyUpper ref
    let altU := pyUpper alt
    some (keyOfCoord (chrom, pos, refU, altU), (chrom, pos, refU, altU))

/-- Lines 116–140 of the script: process one reference row.  `none`
means the row was skipped (unparsable identifier, identifier not
wanted, or rejected by a filter); `some (vid, key, tup)` means the row
was kept and `(key, tup)` registered for `vid`. -/
def processRow (ids : List Int) (assemblyCfg : String) (row : RefRow) :
    Option (Int × String × Coord) :=
  match row.variationID.bind pyToInt with
  | none => none
  | some vid =>
    if ids.contains vid then
      let asm := pyStrip (row.assembly.getD "")
      if assemblyCfg ≠ "" ∧ asm ≠ "" ∧ asm ≠ assemblyCfg then none
      else (afterAssembly row).map fun kt => (vid, kt.1, kt.2)
    else none

/-- The scan-loop state: the accumulating candidate map and the two
reporting counters. -/
structure ScanState where
  candidates : CandMap
  seen_rows : Nat
  kept_rows : Nat
deriving Repr

/-- One iteration of the `for row in reader` loop (lines 114–141):
`seen_rows` always increments; a kept row registers its candidate and
increments `kept_rows`. -/
def scanStep (ids : List Int) (assemblyCfg : String) (st : ScanState) (row : RefRow) :
    ScanState :=
  match processRow ids assemblyCfg row with
  | none => { st with seen_rows := st.seen_rows + 1 }
  | some (vid, key, t) =>
    { candidates := registerCandidate vid key t st.candidates
      seen_rows := st.seen_rows + 1
      kept_rows := st.kept_rows + 1 }

/-- The whole reference scan: fold the loop body over the parsed rows,
starting from the empty candidate map and zeroed counters. -/
def runScan (ids : List Int) (assemblyCfg : String) (rows : List RefRow) : ScanState :=
  rows.foldl (scanStep ids assemblyCfg) ⟨[], 0, 0⟩

/-- A data row of the unique output table. -/
structure UniqueRow where
  pickleId : Int
  chromosome : String
  positionVCF : String
  referenceAllele : String
  alternateAllele : String
  chrPosRefAlt : String
deriving DecidableEq, Repr

/-- A data row of the ambiguous output table. -/
structure AmbRow where
  pickleId : Int
  chromosome : String
  positionVCF : String
  referenceAllele : String
  alternateAllele : String
  chrPosRefAlt : String
  nCandidates : Nat
deriving DecidableEq, Repr

/-- `sorted(candidates.items())` (line 163): ascending by identifier.
Python compares the `(int, dict)` pairs lexicographically; the
identifiers are the dict's keys and hence distinct, so only the integer
components are ever compared. -/
def sortCandidates (m : CandMap) : CandMap :=
  m.mergeSort fun a b => decide (a.1 ≤ b.1)

/-- `sorted(key_map.items())` (line 169): ascending by coordinate-key
string (keys distinct, so only the strings are compared). -/
def sortInner (inner : InnerMap) : InnerMap :=
  inner.mergeSort fun a b => decide (a.1 ≤ b.1)

/-- Emission for one identifier (lines 163–171): one unique row when the
candidate map has exactly one entry, else one ambiguous row per entry in
lexical key order, annotated with the candidate count. -/
def emitEntry (vid : Int) (inner : InnerMap) : List UniqueRow × List AmbRow :=
  if inner.length = 1 then
    match inner.head? with
    | some (k, (c, p, r, a)) => ([⟨vid, c, p, r, a, k⟩], [])
    | none => ([], [])
  else
    ([], (sortInner inner).map fun kt =>
      ⟨vid, kt.2.1, kt.2.2.1, kt.2.2.2.1, kt.2.2.2.2, kt.1, inner.length⟩)

/-- All data rows of the unique output table, in emission order. -/
def uniqueRows (m : CandMap) : List UniqueRow :=
  (sortCandidates m).flatMap fun e => (emitEntry e.1 e.2).1

/-- All data rows of the ambiguous output table, in emission order. -/
def ambRows (m : CandMap) : List AmbRow :=
  (sortCandidates m).flatMap fun e => (emitEntry e.1 e.2).2

/-- Number of distinct surviving candidate coordinates recorded for an
identifier in the completed candidate map. -/
def candCount (vid : Int) (m : CandMap) : Nat :=
  ((assocLookup vid m).getD []).length

/-- Lookup of a candidate tuple: the identifier's inner dict, then the
coordinate key. -/
def candLookup (m : CandMap) (vid : Int) (key : String) : Option Coord :=
  (assocLookup vid m).bind fun inner => assocLookup key inner

/-- `csv.writer` minimal quoting: a field is quoted iff it contains the
tab delimiter, the quote character, or a line-terminator character. -/
def csvNeedsQuote (s : String) : Bool :=
  s.data.any fun c => c == '\t' || c == '"' || c == '\r' || c == '\n'

/-- Quote a field for `csv.writer`: double each embedded quote character
and wrap in quotes. -/
def csvQuote (s : String) : String :=
  "\"" ++ ⟨s.data.flatMap fun c => if c = '"' then ['"', '"'] else [c]⟩ ++ "\""

/-- Render one field under `csv.QUOTE_MINIMAL`. -/
def csvField (s : String) : String :=
  if csvNeedsQuote s then csvQuote s else s

/-- `writer.writerow`: tab-join the quoted fields and append the default
line terminator. -/
def renderRecord (fields : List String) : String :=
  String.intercalate "\t" (fields.map csvField) ++ "\r\n"

/-- The shared six-column header (lines 150–158). -/
def headerFields : List String :=
  ["pickle_ID", "Chromosome", "PositionVCF", "ReferenceAlleleVCF",
   "AlternateAlleleVCF", "chr_pos_ref_alt"]

/-- The byte content of the unique output table. -/
def renderUniqueTable (rows : List UniqueRow) : String :=
  renderRecord headerFields ++
    String.join (rows.map fun u =>
      renderRecord [toString u.pickleId, u.chromosome, u.positionVCF,
        u.referenceAllele, u.alternateAllele, u.chrPosRefAlt])

/-- The byte content of the ambiguous output table. -/
def renderAmbTable (rows : List AmbRow) : String :=
  renderRecord (headerFields ++ ["n_candidates"]) ++
    String.join (rows.map fun a =>
      renderRecord [toString a.pickleId, a.chromosome, a.positionVCF,
        a.referenceAllele, a.alternateAllele, a.chrPosRefAlt,
        toString a.nCandidates])

/-- An object yielded by `pickle.load` in the record-source reader: a
key-value record (values modelled by the result of `int(...)` coercion:
`some n` if the value coerces to the integer `n`, `none` if coercion
raises) or any non-mapping object. -/
inductive PickleObj where
  | dictObj (fields : List (String × Option Int))
  | other
deriving DecidableEq, Repr

/-- `ids.add(n)`: insert into the set, modelled as a duplicate-free list
(append when absent). -/
def setAdd (n : Int) (acc : List Int) : List Int :=
  if acc.contains n then acc else acc ++ [n]

/-- The body of one loop iteration (lines 99–103): a loaded record
contributes its coerced `ID` field when it is a mapping that has one and
the value coerces; otherwise the set is left unchanged (silent skip). -/
def recordStep (obj : PickleObj) (acc : List Int) : List Int :=
  match obj with
  | .dictObj fields =>
    match assocLookup "ID" fields with
    | some (some n) => setAdd n acc
    | some none => acc
    | none => acc
  | .other => acc

/-- The `while len(ids) < args.max_ids` loop of lines 92–103: before
each load the bound is checked; end of stream ends the loop; each
loaded record is folded in by `recordStep`. -/
def readIdsGo (maxIds : Int) (acc : List Int) : List PickleObj → List Int
  | [] => acc
  | obj :: rest =>
    if (acc.length : Int) < maxIds then readIdsGo maxIds (recordStep obj acc) rest
    else acc

/-- The record source reader: the set of unique integer identifiers
collected from a stream of records, bounded by `maxIds`. -/
def readIds (maxIds : Int) (stream : List PickleObj) : List Int :=
  readIdsGo maxIds [] stream

/-- A record that the reader skips: not a key-value mapping, lacking the
designated `ID` field, or whose `ID` value does not coerce to an
integer. -/
def skippedObj : PickleObj → Bool
  | .dictObj fields =>
    match assocLookup "ID" fields with
    | some (some _) => false
    | some none => true
    | none => true
  | .other => true

/-- `m` has distinct identifiers and each inner dict has distinct keys
(always true of Python dicts; an invariant of the scan). -/
def wfCandMap (m : CandMap) : Prop :=
  (m.map Prod.fst).Nodup ∧ ∀ e ∈ m, (e.2.map Prod.fst).Nodup

/-- Total number of stored candidate bindings across all identifiers. -/
def totalCands (m : CandMap) : Nat :=
  (m.map fun e => e.2.length).sum

section DictLemmas

variable {K V : Type} [DecidableEq K]

theorem assocLookup_dictInsert_self (k : K) (v : V) (m : List (K × V)) :
    assocLookup k (dictInsert k v m) = some v := by
  induction m with
  | nil => simp [dictInsert, assocLookup]
  | cons e rest ih =>
    obtain ⟨k', v'⟩ := e
    by_cases h : k = k'
    · simp [dictInsert, h, assocLookup]
    · simp [dictInsert, h, assocLookup, ih]

theorem assocLookup_dictInsert_ne (k k' : K) (v : V) (m : List (K × V)) (h : k' ≠ k) :
    assocLookup k' (dictInsert k v m) = assocLookup k' m := by
  induction m with
  | nil => simp [dictInsert, assocLookup, h]
  | cons e rest ih =>
    obtain ⟨k₀, v₀⟩ := e
    by_cases hk : k = k₀
    · subst hk; simp [dictInsert, assocLookup, h]
    · by_cases hk' : k' = k₀ <;> simp [dictInsert, assocLookup, hk, hk', ih]

theorem length_dictInsert_le (k : K) (v : V) (m : List (K × V)) :
    (dictInsert k v m).length ≤ m.length + 1 := by
  induction m with
  | nil => simp [dictInsert]
  | cons e rest ih =>
    obtain ⟨k₀, v₀⟩ := e
    by_cases hk : k = k₀
    · simp [dictInsert, hk]
    · simp only [dictInsert, if_neg hk, List.length_cons]
      omega

theorem map_fst_dictInsert_mem (k : K) (v : V) (m : List (K × V))
    (h : k ∈ m.map Prod.fst) : (dictInsert k v m).map Prod.fst = m.map Prod.fst := by
  induction m with
  | nil => simp at h
  | cons e rest ih =>
    obtain ⟨k₀, v₀⟩ := e
    by_cases hk : k = k₀
    · simp [dictInsert, hk]
    · have h' : k ∈ rest.map Prod.fst := by
        rcases List.mem_cons.mp h with h' | h'
        · exact absurd h' hk
        · exact h'
      simp [dictInsert, hk, ih h']

theorem map_fst_dictInsert_not_mem (k : K) (v : V) (m : List (K × V))
    (h : k ∉ m.map Prod.fst) :
    (dictInsert k v m).map Prod.fst = m.map Prod.fst ++ [k] := by
  induction m with
  | nil => simp [dictInsert]
  | cons e rest ih =>
    obtain ⟨k₀, v₀⟩ := e
    have hk : k ≠ k₀ := by intro hc; exact h (by simp [hc])
    have h' : k ∉ rest.map Prod.fst := by intro hc; exact h (by simp [hc])
    simp [dictInsert, hk, ih h']

theorem nodup_map_fst_dictInsert (k : K) (v : V) (m : List (K × V))
    (h : (m.map Prod.fst).Nodup) : ((dictInsert k v m).map Prod.fst).Nodup := by
  by_cases hk : k ∈ m.map Prod.fst
  · rw [map_fst_dictInsert_mem k v m hk]; exact h
  · rw [map_fst_dictInsert_not_mem k v m hk]
    simp [List.nodup_append, h, hk]

theorem assocLookup_isSome_of_mem (k : K) (v : V) (m : List (K × V))
    (h : (k, v) ∈ m) : (assocLookup k m).isSome := by
  induction m with
  | nil => simp at h
  | cons e rest ih =>
    obtain ⟨k₀, v₀⟩ := e
    rcases List.mem_cons.mp h with h' | h'
    · obtain ⟨rfl, rfl⟩ := Prod.mk.injEq .. ▸ h'
      simp [assocLookup]
    · by_cases hk : k = k₀ <;> simp [assocLookup, hk, ih h']

theorem assocLookup_of_mem_nodup (k : K) (v : V) (m : List (K × V))
    (hmem : (k, v) ∈ m) (hnd : (m.map Prod.fst).Nodup) : assocLookup k m = some v := by
  induction m with
  | nil => simp at hmem
  | cons e rest ih =>
    obtain ⟨k₀, v₀⟩ := e
    rw [List.map_cons, List.nodup_cons] at hnd
    rcases List.mem_cons.mp hmem with h' | h'
    · obtain ⟨rfl, rfl⟩ := Prod.mk.injEq .. ▸ h'
      simp [assocLookup]
    · have hk : k ≠ k₀ := by
        intro h; subst h
        exact hnd.1 (List.mem_map.mpr ⟨(k, v), h', rfl⟩)
      simp [assocLookup, hk, ih h' hnd.2]

end DictLemmas

section RegisterLemmas

theorem assocLookup_register_ne (vid vid' : Int) (key : String) (t : Coord) (m : CandMap)
    (h : vid' ≠ vid) :
    assocLookup vid' (registerCandidate vid key t m) = assocLookup vid' m := by
  induction m with
  | nil => simp [registerCandidate, assocLookup, h]
  | cons e rest ih =>
    obtain ⟨v, inner⟩ := e
    by_cases hv : vid = v
    · subst hv; simp [registerCandidate, assocLookup, h]
    · by_cases hv' : vid' = v <;> simp [registerCandidate, assocLookup, hv, hv', ih]

theorem assocLookup_register_self (vid : Int) (key : String) (t : Coord) (m : CandMap) :
    assocLookup vid (registerCandidate vid key t m) =
      some (dictInsert key t ((assocLookup vid m).getD [])) := by
  induction m with
  | nil => simp [registerCandidate, assocLookup, dictInsert]
  | cons e rest ih =>
    obtain ⟨v, inner⟩ := e
    by_cases hv : vid = v
    · subst hv; simp [registerCandidate, assocLookup]
    · simp [registerCandidate, assocLookup, hv, ih]

theorem candLookup_register_self (vid : Int) (key : String) (t : Coord) (m : CandMap) :
    candLookup (registerCandidate vid key t m) vid key = some t := by
  simp [candLookup, assocLookup_register_self, assocLookup_dictInsert_self]

theorem candLookup_register_ne (vid vid' : Int) (key key' : String) (t : Coord) (m : CandMap)
    (h : ¬(vid' = vid ∧ key' = key)) :
    candLookup (registerCandidate vid key t m) vid' key' = candLookup m vid' key' := by
  by_cases hv : vid' = vid
  · subst hv
    have hk : key' ≠ key := fun hk => h ⟨rfl, hk⟩
    rw [candLookup, assocLookup_register_self]
    cases hvm : assocLookup vid' m with
    | none => simp [candLookup, hvm, dictInsert, assocLookup, hk]
    | some inner => simp [candLookup, hvm, assocLookup_dictInsert_ne _ _ _ _ hk]
  · rw [candLookup, candLookup, assocLookup_register_ne _ _ _ _ _ hv]

theorem assocLookup_register_isSome (vid vid' : Int) (key : String) (t : Coord) (m : CandMap) :
    (assocLookup vid' (registerCandidate vid key t m)).isSome = true ↔
      (vid' = vid ∨ (assocLookup vid' m).isSome = true) := by
  by_cases hv : vid' = vid
  · subst hv; simp [assocLookup_register_self]
  · simp [assocLookup_register_ne _ _ _ _ _ hv, hv]

theorem map_fst_register_mem (vid : Int) (key : String) (t : Coord) (m : CandMap)
    (h : vid ∈ m.map Prod.fst) :
    (registerCandidate vid key t m).map Prod.fst = m.map Prod.fst := by
  induction m with
  | nil => simp at h
  | cons e rest ih =>
    obtain ⟨v, inner⟩ := e
    by_cases hv : vid = v
    · subst hv; simp [registerCandidate]
    · have h' : vid ∈ rest.map Prod.fst := by
        rcases List.mem_cons.mp h with h' | h'
        · exact absurd h' hv
        · exact h'
      simp [registerCandidate, hv, ih h']

theorem map_fst_register_not_mem (vid : Int) (key : String) (t : Coord) (m : CandMap)
    (h : vid ∉ m.map Prod.fst) :
    (registerCandidate vid key t m).map Prod.fst = m.map Prod.fst ++ [vid] := by
  induction m with
  | nil => simp [registerCandidate]
  | cons e rest ih =>
    obtain ⟨v, inner⟩ := e
    have hv : vid ≠ v := by intro hc; exact h (by simp [hc])
    have h' : vid ∉ rest.map Prod.fst := by intro hc; exact h (by simp [hc])
    simp [registerCandidate, hv, ih h']

theorem mem_register_cases (vid : Int) (key : String) (t : Coord) (m : CandMap)
    (e : Int × InnerMap) (he : e ∈ registerCandidate vid key t m) :
    e ∈ m ∨ e = (vid, [(key, t)]) ∨
      ∃ inner, (e.1, inner) ∈ m ∧ e = (e.1, dictInsert key t inner) := by
  induction m with
  | nil =>
    simp [registerCandidate] at he
    exact Or.inr (Or.inl he)
  | cons e₀ rest ih =>
    obtain ⟨v, inner₀⟩ := e₀
    by_cases hv : vid = v
    · subst hv
      simp only [registerCandidate, if_pos rfl] at he
      rcases List.mem_cons.mp he with h' | h'
      · subst h'
        exact Or.inr (Or.inr ⟨inner₀, by simp⟩)
      · exact Or.inl (List.mem_cons.mpr (Or.inr h'))
    · simp only [registerCandidate, if_neg hv] at he
      rcases List.mem_cons.mp he with h' | h'
      · exact Or.inl (List.mem_cons.mpr (Or.inl h'))
      · rcases ih h' with h'' | h'' | ⟨inner', hmem, heq⟩
        · exact Or.inl (List.mem_cons.mpr (Or.inr h''))
        · exact Or.inr (Or.inl h'')
        · exact Or.inr (Or.inr ⟨inner', List.mem_cons.mpr (Or.inr hmem), heq⟩)

theorem wf_register (vid : Int) (key : String) (t : Coord) (m : CandMap)
    (h : wfCandMap m) : wfCandMap (registerCandidate vid key t m) := by
  obtain ⟨hnd, hinner⟩ := h
  constructor
  · by_cases hk : vid ∈ m.map Prod.fst
    · rw [map_fst_register_mem _ _ _ _ hk]; exact hnd
    · rw [map_fst_register_not_mem _ _ _ _ hk]
      simp [List.nodup_append, hnd, hk]
  · intro e he
    rcases mem_register_cases _ _ _ _ _ he with h' | h' | ⟨inner', hmem, heq⟩
    · exact hinner e h'
    · subst h'; simp
    · rw [heq]
      exact nodup_map_fst_dictInsert _ _ _ (hinner (e.1, inner') hmem)

end RegisterLemmas

section TrimLemmas

variable {α : Type}

theorem dropWhile_eq_self_of_head (p : α → Bool) (l : List α)
    (h : ∀ x, l.head? = some x → p x = false) : l.dropWhile p = l := by
  cases l with
  | nil => rfl
  | cons a l =>
    rw [List.dropWhile_cons, if_neg]
    simp [h a rfl]

theorem head_dropWhile_false (p : α → Bool) (l : List α) :
    ∀ x, (l.dropWhile p).head? = some x → p x = false := by
  induction l with
  | nil => simp
  | cons a l ih =>
    intro x hx
    by_cases h : p a
    · rw [List.dropWhile_cons, if_pos h] at hx
      exact ih x hx
    · rw [List.dropWhile_cons, if_neg h] at hx
      simp at hx
      subst hx
      simp [h]

theorem getLast?_dropWhile (p : α → Bool) (l : List α) (h : l.dropWhile p ≠ []) :
    (l.dropWhile p).getLast? = l.getLast? := by
  induction l with
  | nil => simp at h
  | cons a l ih =>
    by_cases hp : p a
    · rw [List.dropWhile_cons, if_pos hp] at h ⊢
      have hl : l ≠ [] := by
        intro hc; subst hc; simp at h
      rw [ih h, List.getLast?_cons]
      cases hl' : l.getLast? with
      | none => exact absurd (List.getLast?_eq_none_iff.mp hl') hl
      | some b => rfl
    · rw [List.dropWhile_cons, if_neg hp]

theorem trimChars_head (l : List Char) :
    ∀ x, (trimChars l).head? = some x → pyIsSpace x = false := by
  intro x hx
  unfold trimChars at hx
  rw [List.head?_reverse] at hx
  have hne : (l.dropWhile pyIsSpace).reverse.dropWhile pyIsSpace ≠ [] := by
    intro hc; rw [hc] at hx; simp at hx
  rw [getLast?_dropWhile _ _ hne, List.getLast?_reverse] at hx
  exact head_dropWhile_false pyIsSpace l x hx

theorem trimChars_last (l : List Char) :
    ∀ x, (trimChars l).getLast? = some x → pyIsSpace x = false := by
  intro x hx
  unfold trimChars at hx
  rw [List.getLast?_reverse] at hx
  exact head_dropWhile_false pyIsSpace _ x hx

theorem trimChars_idem (l : List Char) : trimChars (trimChars l) = trimChars l := by
  have h1 : List.dropWhile pyIsSpace (trimChars l) = trimChars l :=
    dropWhile_eq_self_of_head _ _ (trimChars_head l)
  have h2 : List.dropWhile pyIsSpace (trimChars l).reverse = (trimChars l).reverse :=
    dropWhile_eq_self_of_head _ _ (by
      intro x hx
      rw [List.head?_reverse] at hx
      exact trimChars_last l x hx)
  show ((List.dropWhile pyIsSpace (trimChars l)).reverse.dropWhile pyIsSpace).reverse = trimChars l
  rw [h1, h2, List.reverse_reverse]

theorem pyStrip_idem (s : String) : pyStrip (pyStrip s) = pyStrip s := by
  apply String.ext
  show trimChars (trimChars s.data) = trimChars s.data
  exact trimChars_idem s.data

end TrimLemmas

section KeyInjectivity

/-- The shape of every stored tuple: nonempty all-digit position and
single-character A/C/G/T alleles.  Verification-side predicate used to
show the composite key determines the tuple. -/
def validCoord (t : Coord) : Bool :=
  (!t.2.1.data.isEmpty && t.2.1.data.all pyIsDigitChar) &&
  (t.2.2.1 == "A" || t.2.2.1 == "C" || t.2.2.1 == "G" || t.2.2.1 == "T") &&
  (t.2.2.2 == "A" || t.2.2.2 == "C" || t.2.2.2 == "G" || t.2.2.2 == "T")

theorem append_cons_sep_inj (u : Char) (xs : List Char) :
    ∀ (xs' ys ys' : List Char), u ∉ xs → u ∉ xs' →
      xs ++ u :: ys = xs' ++ u :: ys' → xs = xs' ∧ ys = ys' := by
  induction xs with
  | nil =>
    intro xs' ys ys' _ h2 h
    cases xs' with
    | nil =>
      simp only [List.nil_append] at h
      injection h with _ h'
      exact ⟨rfl, h'⟩
    | cons x' rest =>
      simp only [List.nil_append, List.cons_append] at h
      injection h with hx _
      exact absurd (by rw [hx]; exact List.mem_cons_self x' rest) h2
  | cons x rest ih =>
    intro xs' ys ys' h1 h2 h
    cases xs' with
    | nil =>
      simp only [List.nil_append, List.cons_append] at h
      injection h with hx _
      exact absurd (by rw [← hx]; exact List.mem_cons_self x rest) h1
    | cons x' rest' =>
      simp only [List.cons_append] at h
      injection h with hx h'
      subst hx
      have h1' : u ∉ rest := fun hc => h1 (List.mem_cons.mpr (Or.inr hc))
      have h2' : u ∉ rest' := fun hc => h2 (List.mem_cons.mpr (Or.inr hc))
      obtain ⟨he1, he2⟩ := ih rest' ys ys' h1' h2' h'
      exact ⟨by rw [he1], he2⟩

theorem keyOfCoord_data (t : Coord) :
    (keyOfCoord t).data =
      t.1.data ++ '_' :: (t.2.1.data ++ '_' :: (t.2.2.1.data ++ '_' :: t.2.2.2.data)) := by
  show (t.1 ++ "_" ++ t.2.1 ++ "_" ++ t.2.2.1 ++ "_" ++ t.2.2.2).data = _
  simp [String.data_append]

theorem acgt_data (s : String)
    (h : (s == "A" || s == "C" || s == "G" || s == "T") = true) :
    ∃ ch, s.data = [ch] ∧ ch ≠ '_' := by
  simp only [Bool.or_eq_true, beq_iff_eq] at h
  rcases h with ((rfl | rfl) | rfl) | rfl
  · exact ⟨'A', rfl, by decide⟩
  · exact ⟨'C', rfl, by decide⟩
  · exact ⟨'G', rfl, by decide⟩
  · exact ⟨'T', rfl, by decide⟩

theorem digits_no_underscore (l : List Char) (h : l.all pyIsDigitChar = true) :
    '_' ∉ l := by
  intro hc
  have := List.all_eq_true.mp h _ hc
  simp [pyIsDigitChar, pyDecimalDigitValue] at this

theorem rev_key_shape (c p : List Char) (rc ac : Char) :
    (c ++ '_' :: (p ++ '_' :: rc :: '_' :: [ac])).reverse =
      ac :: '_' :: rc :: '_' :: (p.reverse ++ '_' :: c.reverse) := by
  simp [List.reverse_append]

theorem keyOfCoord_inj (t t' : Coord) (h1 : validCoord t = true) (h2 : validCoord t' = true)
    (h : keyOfCoord t = keyOfCoord t') : t = t' := by
  obtain ⟨c, p, r, a⟩ := t
  obtain ⟨c', p', r', a'⟩ := t'
  simp only [validCoord, Bool.and_eq_true] at h1 h2
  obtain ⟨⟨hp1, hr1⟩, ha1⟩ := h1
  obtain ⟨⟨hp2, hr2⟩, ha2⟩ := h2
  obtain ⟨rc, hrc, hrcu⟩ := acgt_data _ hr1
  obtain ⟨ac, hac, hacu⟩ := acgt_data _ ha1
  obtain ⟨rc', hrc', hrcu'⟩ := acgt_data _ hr2
  obtain ⟨ac', hac', hacu'⟩ := acgt_data _ ha2
  have hdata := congrArg String.data h
  rw [keyOfCoord_data, keyOfCoord_data] at hdata
  simp only at hdata
  rw [hrc, hac, hrc', hac'] at hdata
  have hrev := congrArg List.reverse hdata
  rw [show (c.data ++ '_' :: (p.data ++ '_' :: ([rc] ++ '_' :: [ac]))) =
        (c.data ++ '_' :: (p.data ++ '_' :: rc :: '_' :: [ac])) from rfl,
      show (c'.data ++ '_' :: (p'.data ++ '_' :: ([rc'] ++ '_' :: [ac']))) =
        (c'.data ++ '_' :: (p'.data ++ '_' :: rc' :: '_' :: [ac'])) from rfl,
      rev_key_shape, rev_key_shape] at hrev
  obtain ⟨hae, hrev⟩ := List.cons.injEq .. ▸ hrev
  obtain ⟨-, hrev⟩ := List.cons.injEq .. ▸ hrev
  obtain ⟨hre, hrev⟩ := List.cons.injEq .. ▸ hrev
  obtain ⟨-, hrev⟩ := List.cons.injEq .. ▸ hrev
  have hpu1 : '_' ∉ p.data.reverse := by
    intro hc
    exact digits_no_underscore _ hp1.2 (List.mem_reverse.mp hc)
  have hpu2 : '_' ∉ p'.data.reverse := by
    intro hc
    exact digits_no_underscore _ hp2.2 (List.mem_reverse.mp hc)
  obtain ⟨hpe, hce⟩ := append_cons_sep_inj '_' _ _ _ _ hpu1 hpu2 hrev
  have hpd : p.data = p'.data := List.reverse_inj.mp hpe
  have hcd : c.data = c'.data := List.reverse_inj.mp hce
  have hc : c = c' := String.ext hcd
  have hp : p = p' := String.ext hpd
  have hr : r = r' := String.ext (by rw [hrc, hrc', hre])
  have ha : a = a' := String.ext (by rw [hac, hac', hae])
  rw [hc, hp, hr, ha]

end KeyInjectivity

section Inversion

theorem toNat_ofNat_valid (m : Nat) (h : m < 55296) : (Char.ofNat m).toNat = m := by
  unfold Char.ofNat
  rw [dif_pos (Or.inl h)]
  rfl

theorem charToNat_inj (c d : Char) (h : c.toNat = d.toNat) : c = d := by
  have h' := congrArg Char.ofNat h
  rwa [Char.ofNat_toNat, Char.ofNat_toNat] at h'

theorem toUpper_eq_basic (c u : Char)
    (h : Char.toUpper c = u) : c = u ∨ c.toNat = u.toNat + 32 := by
  simp only [Char.toUpper] at h
  by_cases hc : c.toNat ≥ 97 ∧ c.toNat ≤ 122
  · rw [if_pos hc] at h
    right
    have hv : (Char.ofNat (c.toNat - 32)).toNat = c.toNat - 32 :=
      toNat_ofNat_valid _ (by omega)
    have h' := congrArg Char.toNat h
    rw [hv] at h'
    omega
  · rw [if_neg hc] at h
    exact Or.inl h

theorem singleton_string_cases (s : String) (ch : Char) (u l : Char)
    (hdata : s.data = [ch]) (hlu : l.toNat = u.toNat + 32)
    (hupper : Char.toUpper ch = u) : s = ⟨[u]⟩ ∨ s = ⟨[l]⟩ := by
  rcases toUpper_eq_basic ch u hupper with h | h
  · left; exact String.ext (by rw [hdata, h])
  · right
    refine String.ext ?_
    rw [hdata]
    have : ch = l := charToNat_inj _ _ (by omega)
    rw [this]

theorem snv_allele_inv (s : String) (h : _is_snv_allele s = true) :
    pyStrip s = "A" ∨ pyStrip s = "a" ∨ pyStrip s = "C" ∨ pyStrip s = "c" ∨
    pyStrip s = "G" ∨ pyStrip s = "g" ∨ pyStrip s = "T" ∨ pyStrip s = "t" := by
  simp only [_is_snv_allele, Bool.and_eq_true] at h
  obtain ⟨hlen, hmem⟩ := h
  have hdl : (pyStrip s).data.length = 1 := by
    have hl : (pyUpper (pyStrip s)).length = 1 := by
      rw [beq_iff_eq] at hlen
      exact hlen
    have hd : ((pyStrip s).data.map Char.toUpper).length = 1 := hl
    rwa [List.length_map] at hd
  obtain ⟨ch, hch⟩ := List.length_eq_one.mp hdl
  have hupper : (pyUpper (pyStrip s)).data = [Char.toUpper ch] := by
    show (pyStrip s).data.map Char.toUpper = _
    rw [hch]
    rfl
  have hAe : ("A" : String).data = ['A'] := rfl
  have hCe : ("C" : String).data = ['C'] := rfl
  have hGe : ("G" : String).data = ['G'] := rfl
  have hTe : ("T" : String).data = ['T'] := rfl
  rcases (by simpa only [Bool.or_eq_true, beq_iff_eq] using hmem :
      ((pyUpper (pyStrip s) = "A" ∨ pyUpper (pyStrip s) = "C") ∨
        pyUpper (pyStrip s) = "G") ∨ pyUpper (pyStrip s) = "T") with ((hm | hm) | hm) | hm
  · have hu : Char.toUpper ch = 'A' := by
      have hd := congrArg String.data hm
      rw [hupper, hAe] at hd
      injection hd
    rcases singleton_string_cases _ ch 'A' 'a' hch rfl hu with h' | h'
    · exact Or.inl (by rw [h'])
    · exact Or.inr (Or.inl (by rw [h']))
  · have hu : Char.toUpper ch = 'C' := by
      have hd := congrArg String.data hm
      rw [hupper, hCe] at hd
      injection hd
    rcases singleton_string_cases _ ch 'C' 'c' hch rfl hu with h' | h'
    · exact Or.inr (Or.inr (Or.inl (by rw [h'])))
    · exact Or.inr (Or.inr (Or.inr (Or.inl (by rw [h']))))
  · have hu : Char.toUpper ch = 'G' := by
      have hd := congrArg String.data hm
      rw [hupper, hGe] at hd
      injection hd
    rcases singleton_string_cases _ ch 'G' 'g' hch rfl hu with h' | h'
    · exact Or.inr (Or.inr (Or.inr (Or.inr (Or.inl (by rw [h'])))))
    · exact Or.inr (Or.inr (Or.inr (Or.inr (Or.inr (Or.inl (by rw [h']))))))
  · have hu : Char.toUpper ch = 'T' := by
      have hd := congrArg String.data hm
      rw [hupper, hTe] at hd
      injection hd
    rcases singleton_string_cases _ ch 'T' 't' hch rfl hu with h' | h'
    · exact Or.inr (Or.inr (Or.inr (Or.inr (Or.inr (Or.inr (Or.inl (by rw [h'])))))))
    · exact Or.inr (Or.inr (Or.inr (Or.inr (Or.inr (Or.inr (Or.inr (by rw [h'])))))))

theorem snv_upper_acgt (s : String) (h : _is_snv_allele (pyStrip s) = true) :
    (pyUpper (pyStrip s) == "A" || pyUpper (pyStrip s) == "C" ||
     pyUpper (pyStrip s) == "G" || pyUpper (pyStrip s) == "T") = true := by
  simp only [_is_snv_allele, Bool.and_eq_true] at h
  rw [pyStrip_idem] at h
  exact h.2

theorem afterAssembly_inv (row : RefRow) (key : String) (t : Coord)
    (h : afterAssembly row = some (key, t)) :
    t = (pyStrip (row.chromosome.getD ""), pyStrip (row.positionVCF.getD ""),
         pyUpper (pyStrip (row.referenceAllele.getD "")),
         pyUpper (pyStrip (row.alternateAllele.getD ""))) ∧
    key = keyOfCoord t ∧
    pyIsDigit (pyStrip (row.positionVCF.getD "")) = true ∧
    _is_snv_allele (pyStrip (row.referenceAllele.getD "")) = true ∧
    _is_snv_allele (pyStrip (row.alternateAllele.getD "")) = true := by
  simp only [afterAssembly] at h
  split_ifs at h with h1 h2 h3
  rw [Option.some.injEq, Prod.mk.injEq] at h
  obtain ⟨hkey, ht⟩ := h
  rw [Bool.not_eq_true, Bool.not_eq_eq_eq_not, Bool.not_false] at h2
  rw [Bool.not_eq_true, Bool.not_eq_eq_eq_not, Bool.not_false, Bool.and_eq_true] at h3
  exact ⟨ht.symm, by rw [← ht, ← hkey], h2, h3.1, h3.2⟩

theorem processRow_inv (ids : List Int) (cfg : String) (row : RefRow)
    (vid : Int) (key : String) (t : Coord)
    (h : processRow ids cfg row = some (vid, key, t)) :
    row.variationID.bind pyToInt = some vid ∧ ids.contains vid = true ∧
    afterAssembly row = some (key, t) := by
  cases hb : row.variationID.bind pyToInt with
  | none =>
    simp only [processRow, hb] at h
    exact Option.noConfusion h
  | some vid' =>
    simp only [processRow, hb] at h
    by_cases hc : ids.contains vid' = true
    · rw [if_pos hc] at h
      split_ifs at h with hasm
      rw [Option.map_eq_some'] at h
      obtain ⟨kt, hkt, heq⟩ := h
      rw [Prod.mk.injEq] at heq
      obtain ⟨hv, heq2⟩ := heq
      subst hv
      refine ⟨rfl, hc, ?_⟩
      rw [hkt, ← heq2]
    · rw [if_neg hc] at h
      exact Option.noConfusion h

theorem processRow_valid (ids : List Int) (cfg : String) (row : RefRow)
    (vid : Int) (key : String) (t : Coord)
    (h : processRow ids cfg row = some (vid, key, t)) :
    key = keyOfCoord t ∧ validCoord t = true := by
  obtain ⟨-, -, haa⟩ := processRow_inv _ _ _ _ _ _ h
  obtain ⟨ht, hkey, hdig, href, halt⟩ := afterAssembly_inv _ _ _ haa
  refine ⟨hkey, ?_⟩
  rw [ht]
  unfold validCoord
  simp only
  rw [Bool.and_eq_true, Bool.and_eq_true]
  refine ⟨⟨?_, ?_⟩, ?_⟩
  · exact hdig
  · exact snv_upper_acgt _ href
  · exact snv_upper_acgt _ halt

theorem processRow_key_det (ids ids' : List Int) (cfg cfg' : String) (r r' : RefRow)
    (v v' : Int) (k : String) (t t' : Coord)
    (h : processRow ids cfg r = some (v, k, t))
    (h' : processRow ids' cfg' r' = some (v', k, t')) : t = t' := by
  obtain ⟨hk, hv⟩ := processRow_valid _ _ _ _ _ _ h
  obtain ⟨hk', hv'⟩ := processRow_valid _ _ _ _ _ _ h'
  exact keyOfCoord_inj t t' hv hv' (by rw [← hk, ← hk'])

end Inversion

section ScanLemmas

theorem runScan_append (ids : List Int) (cfg : String) (rows : List RefRow) (r : RefRow) :
    runScan ids cfg (rows ++ [r]) = scanStep ids cfg (runScan ids cfg rows) r := by
  simp [runScan, List.foldl_append]

theorem candLookup_runScan (ids : List Int) (cfg : String) (rows : List RefRow)
    (vid : Int) (key : String) (t : Coord) :
    candLookup (runScan ids cfg rows).candidates vid key = some t ↔
      ∃ r, r ∈ rows ∧ processRow ids cfg r = some (vid, key, t) := by
  induction rows using List.reverseRecOn with
  | nil => simp [runScan, candLookup, assocLookup]
  | append_singleton xs x ih =>
    rw [runScan_append]
    unfold scanStep
    cases hp : processRow ids cfg x with
    | none =>
      simp only
      rw [ih]
      constructor
      · rintro ⟨r, hr, hpr⟩
        exact ⟨r, List.mem_append.mpr (Or.inl hr), hpr⟩
      · rintro ⟨r, hr, hpr⟩
        rcases List.mem_append.mp hr with hr' | hr'
        · exact ⟨r, hr', hpr⟩
        · rw [List.mem_singleton.mp hr'] at hpr
          rw [hpr] at hp
          exact Option.noConfusion hp
    | some vkt =>
      obtain ⟨v, k, t0⟩ := vkt
      simp only
      by_cases hvk : vid = v ∧ key = k
      · obtain ⟨rfl, rfl⟩ := hvk
        rw [candLookup_register_self]
        constructor
        · intro h
          rw [Option.some.injEq] at h
          exact ⟨x, List.mem_append.mpr (Or.inr (List.mem_singleton.mpr rfl)), by rw [hp, h]⟩
        · rintro ⟨r, hr, hpr⟩
          rw [Option.some.injEq]
          exact processRow_key_det ids ids cfg cfg x r vid vid key t0 t hp hpr
      · rw [candLookup_register_ne _ _ _ _ _ _ hvk, ih]
        constructor
        · rintro ⟨r, hr, hpr⟩
          exact ⟨r, List.mem_append.mpr (Or.inl hr), hpr⟩
        · rintro ⟨r, hr, hpr⟩
          rcases List.mem_append.mp hr with hr' | hr'
          · exact ⟨r, hr', hpr⟩
          · rw [List.mem_singleton.mp hr'] at hpr
            rw [hpr] at hp
            rw [Option.some.injEq, Prod.mk.injEq] at hp
            obtain ⟨h1, h2⟩ := hp
            rw [Prod.mk.injEq] at h2
            exact absurd ⟨h1, h2.1⟩ hvk

theorem assocLookup_runScan_isSome (ids : List Int) (cfg : String) (rows : List RefRow)
    (vid : Int) :
    (assocLookup vid (runScan ids cfg rows).candidates).isSome = true ↔
      ∃ r, r ∈ rows ∧ ∃ key t, processRow ids cfg r = some (vid, key, t) := by
  induction rows using List.reverseRecOn with
  | nil => simp [runScan, assocLookup]
  | append_singleton xs x ih =>
    rw [runScan_append]
    unfold scanStep
    cases hp : processRow ids cfg x with
    | none =>
      simp only
      rw [ih]
      constructor
      · rintro ⟨r, hr, hpr⟩
        exact ⟨r, List.mem_append.mpr (Or.inl hr), hpr⟩
      · rintro ⟨r, hr, hpr⟩
        rcases List.mem_append.mp hr with hr' | hr'
        · exact ⟨r, hr', hpr⟩
        · rw [List.mem_singleton.mp hr'] at hpr
          obtain ⟨key, t, hpr⟩ := hpr
          rw [hpr] at hp
          exact Option.noConfusion hp
    | some vkt =>
      obtain ⟨v, k, t0⟩ := vkt
      simp only
      rw [assocLookup_register_isSome, ih]
      constructor
      · rintro (rfl | ⟨r, hr, hpr⟩)
        · exact ⟨x, List.mem_append.mpr (Or.inr (List.mem_singleton.mpr rfl)), k, t0, hp⟩
        · exact ⟨r, List.mem_append.mpr (Or.inl hr), hpr⟩
      · rintro ⟨r, hr, key, t, hpr⟩
        rcases List.mem_append.mp hr with hr' | hr'
        · exact Or.inr ⟨r, hr', key, t, hpr⟩
        · rw [List.mem_singleton.mp hr'] at hpr
          rw [hpr] at hp
          rw [Option.some.injEq, Prod.mk.injEq] at hp
          exact Or.inl hp.1

theorem wf_runScan (ids : List Int) (cfg : String) (rows : List RefRow) :
    wfCandMap (runScan ids cfg rows).candidates := by
  have hgen : ∀ (l : List RefRow) (st : ScanState), wfCandMap st.candidates →
      wfCandMap (l.foldl (scanStep ids cfg) st).candidates := by
    intro l
    induction l with
    | nil => intro st h; exact h
    | cons r l ih =>
      intro st h
      rw [List.foldl_cons]
      apply ih
      unfold scanStep
      cases hp : processRow ids cfg r with
      | none => exact h
      | some vkt => exact wf_register _ _ _ _ h
  exact hgen rows ⟨[], 0, 0⟩ ⟨by simp, by simp⟩

theorem totalCands_register_le (vid : Int) (key : String) (t : Coord) (m : CandMap) :
    totalCands (registerCandidate vid key t m) ≤ totalCands m + 1 := by
  induction m with
  | nil => simp [registerCandidate, totalCands]
  | cons e rest ih =>
    obtain ⟨v, inner⟩ := e
    by_cases hv : vid = v
    · subst hv
      have h1 := length_dictInsert_le key t inner
      simp [registerCandidate, totalCands]
      omega
    · have h1 := ih
      simp only [totalCands] at h1
      simp [registerCandidate, hv, totalCands]
      omega

theorem counters_runScan (ids : List Int) (cfg : String) (rows : List RefRow) :
    totalCands (runScan ids cfg rows).candidates ≤ (runScan ids cfg rows).kept_rows ∧
    (runScan ids cfg rows).kept_rows ≤ (runScan ids cfg rows).seen_rows := by
  have hgen : ∀ (l : List RefRow) (st : ScanState),
      totalCands st.candidates ≤ st.kept_rows → st.kept_rows ≤ st.seen_rows →
      totalCands (l.foldl (scanStep ids cfg) st).candidates ≤
          (l.foldl (scanStep ids cfg) st).kept_rows ∧
        (l.foldl (scanStep ids cfg) st).kept_rows ≤ (l.foldl (scanStep ids cfg) st).seen_rows := by
    intro l
    induction l with
    | nil => intro st h1 h2; exact ⟨h1, h2⟩
    | cons r l ih =>
      intro st h1 h2
      rw [List.foldl_cons]
      apply ih
      · unfold scanStep
        cases hp : processRow ids cfg r with
        | none => exact h1
        | some vkt =>
          obtain ⟨v, k, t0⟩ := vkt
          simp only
          have := totalCands_register_le v k t0 st.candidates
          omega
      · unfold scanStep
        cases hp : processRow ids cfg r with
        | none => simp only; omega
        | some vkt => obtain ⟨v, k, t0⟩ := vkt; simp only; omega
  exact hgen rows ⟨[], 0, 0⟩ (by simp [totalCands]) (by simp)

end ScanLemmas

section EmitLemmas

theorem countP_flatMap {α β : Type} (p : β → Bool) (f : α → List β) (l : List α) :
    (l.flatMap f).countP p = (l.map fun a => (f a).countP p).sum := by
  induction l with
  | nil => simp
  | cons a l ih => simp [List.flatMap_cons, List.countP_append, ih]

theorem length_flatMap {α β : Type} (f : α → List β) (l : List α) :
    (l.flatMap f).length = (l.map fun a => (f a).length).sum := by
  induction l with
  | nil => simp
  | cons a l ih => simp [List.flatMap_cons, ih]

theorem mem_emit_unique (v : Int) (inner : InnerMap) (u : UniqueRow)
    (h : u ∈ (emitEntry v inner).1) : u.pickleId = v := by
  unfold emitEntry at h
  split_ifs at h with hl
  · cases hh : inner.head? with
    | none => rw [hh] at h; simp at h
    | some kt =>
      obtain ⟨k, c, p, r, a⟩ := kt
      rw [hh] at h
      simp at h
      rw [h]
  · simp at h

theorem mem_emit_amb (v : Int) (inner : InnerMap) (a : AmbRow)
    (h : a ∈ (emitEntry v inner).2) :
    a.pickleId = v ∧ a.nCandidates = inner.length ∧
      ∃ kt, kt ∈ inner ∧ a.chrPosRefAlt = kt.1 := by
  unfold emitEntry at h
  split_ifs at h with hl
  · cases hh : inner.head? with
    | none => rw [hh] at h; simp at h
    | some kt =>
      obtain ⟨k, c, p, r, a'⟩ := kt
      rw [hh] at h
      simp at h
  · simp only [List.mem_map] at h
    obtain ⟨kt, hkt, heq⟩ := h
    rw [← heq]
    refine ⟨rfl, rfl, kt, ?_, rfl⟩
    have hperm := List.mergeSort_perm inner fun a b => decide (a.1 ≤ b.1)
    exact hperm.mem_iff.mp hkt

theorem countU_emit (v vid : Int) (inner : InnerMap) :
    ((emitEntry v inner).1.countP fun u => u.pickleId == vid) =
      if v = vid ∧ inner.length = 1 then 1 else 0 := by
  by_cases hl : inner.length = 1
  · obtain ⟨x, rfl⟩ := List.length_eq_one.mp hl
    obtain ⟨k, c, p, r, a⟩ := x
    by_cases hv : v = vid
    · simp [emitEntry, List.countP_cons, hv]
    · simp [emitEntry, List.countP_cons, hv]
  · simp [emitEntry, hl]

theorem countA_emit (v vid : Int) (inner : InnerMap) :
    ((emitEntry v inner).2.countP fun a => a.pickleId == vid) =
      if v = vid ∧ inner.length ≠ 1 then inner.length else 0 := by
  by_cases hl : inner.length = 1
  · obtain ⟨x, rfl⟩ := List.length_eq_one.mp hl
    obtain ⟨k, c, p, r, a⟩ := x
    simp [emitEntry]
  · unfold emitEntry
    rw [if_neg hl]
    simp only [List.countP_map]
    by_cases hv : v = vid
    · subst hv
      rw [if_pos ⟨rfl, hl⟩]
      have : ((sortInner inner).countP fun kt =>
          (AmbRow.mk v kt.2.1 kt.2.2.1 kt.2.2.2.1 kt.2.2.2.2 kt.1 inner.length).pickleId == v) =
          (sortInner inner).length := by
        rw [List.countP_eq_length]
        intro kt _
        simp
      rw [Function.comp_def]
      rw [this]
      simp [sortInner]
    · rw [if_neg fun hc => hv hc.1]
      rw [Function.comp_def]
      rw [List.countP_eq_zero]
      intro kt _
      simp [hv]

theorem length_emit (v : Int) (inner : InnerMap) :
    (emitEntry v inner).1.length + (emitEntry v inner).2.length = inner.length := by
  by_cases hl : inner.length = 1
  · obtain ⟨x, rfl⟩ := List.length_eq_one.mp hl
    obtain ⟨k, c, p, r, a⟩ := x
    simp [emitEntry]
  · simp [emitEntry, hl, sortInner]

theorem countP_uniqueRows (m : CandMap) (p : UniqueRow → Bool) :
    (uniqueRows m).countP p = (m.map fun e => ((emitEntry e.1 e.2).1.countP p)).sum := by
  unfold uniqueRows
  rw [countP_flatMap]
  exact List.Perm.sum_eq (List.Perm.map _ (List.mergeSort_perm m _))

theorem countP_ambRows (m : CandMap) (p : AmbRow → Bool) :
    (ambRows m).countP p = (m.map fun e => ((emitEntry e.1 e.2).2.countP p)).sum := by
  unfold ambRows
  rw [countP_flatMap]
  exact List.Perm.sum_eq (List.Perm.map _ (List.mergeSort_perm m _))

theorem candCount_cons (vid v : Int) (inner : InnerMap) (rest : CandMap) :
    candCount vid ((v, inner) :: rest) =
      if vid = v then inner.length else candCount vid rest := by
  by_cases hv : vid = v
  · simp [candCount, assocLookup, hv]
  · simp [candCount, assocLookup, hv]

theorem sum_countU_not_mem (rest : CandMap) (vid : Int) (h : vid ∉ rest.map Prod.fst) :
    (rest.map fun e => ((emitEntry e.1 e.2).1.countP fun u => u.pickleId == vid)).sum = 0 := by
  apply List.sum_eq_zero
  intro x hx
  rw [List.mem_map] at hx
  obtain ⟨e, he, heq⟩ := hx
  have hne : e.1 ≠ vid := by
    intro hc
    exact h (List.mem_map.mpr ⟨e, he, hc⟩)
  rw [← heq, countU_emit, if_neg fun hc => hne hc.1]

theorem sum_countA_not_mem (rest : CandMap) (vid : Int) (h : vid ∉ rest.map Prod.fst) :
    (rest.map fun e => ((emitEntry e.1 e.2).2.countP fun a => a.pickleId == vid)).sum = 0 := by
  apply List.sum_eq_zero
  intro x hx
  rw [List.mem_map] at hx
  obtain ⟨e, he, heq⟩ := hx
  have hne : e.1 ≠ vid := by
    intro hc
    exact h (List.mem_map.mpr ⟨e, he, hc⟩)
  rw [← heq, countA_emit, if_neg fun hc => hne hc.1]

theorem countP_uniqueRows_id (m : CandMap) (vid : Int) (hnd : (m.map Prod.fst).Nodup) :
    ((uniqueRows m).countP fun u => u.pickleId == vid) =
      if candCount vid m = 1 then 1 else 0 := by
  rw [countP_uniqueRows]
  induction m with
  | nil => simp [candCount, assocLookup]
  | cons e rest ih =>
    obtain ⟨v, inner⟩ := e
    rw [List.map_cons, List.nodup_cons] at hnd
    rw [List.map_cons, List.sum_cons, countU_emit, candCount_cons]
    by_cases hv : vid = v
    · subst hv
      rw [if_pos rfl, sum_countU_not_mem rest vid hnd.1]
      by_cases hl : inner.length = 1
      · rw [if_pos ⟨rfl, hl⟩, if_pos hl]
      · rw [if_neg fun hc => hl hc.2, if_neg hl]
    · rw [if_neg fun hc => hv hc.1.symm, if_neg hv, Nat.zero_add]
      exact ih hnd.2

theorem countP_ambRows_id (m : CandMap) (vid : Int) (hnd : (m.map Prod.fst).Nodup) :
    ((ambRows m).countP fun a => a.pickleId == vid) =
      if 2 ≤ candCount vid m then candCount vid m else 0 := by
  rw [countP_ambRows]
  induction m with
  | nil => simp [candCount, assocLookup]
  | cons e rest ih =>
    obtain ⟨v, inner⟩ := e
    rw [List.map_cons, List.nodup_cons] at hnd
    rw [List.map_cons, List.sum_cons, countA_emit, candCount_cons]
    by_cases hv : vid = v
    · subst hv
      rw [if_pos rfl, sum_countA_not_mem rest vid hnd.1]
      by_cases hl : inner.length = 1
      · rw [if_neg fun hc => hc.2 hl, if_neg (by omega)]
      · rw [if_pos ⟨rfl, hl⟩]
        rcases Nat.eq_zero_or_pos inner.length with hz | hpos
        · rw [hz, if_neg (by omega)]
        · have h2 : 2 ≤ inner.length := by omega
          rw [if_pos h2]
          simp
    · rw [if_neg fun hc => hv hc.1.symm, if_neg hv, Nat.zero_add]
      exact ih hnd.2

theorem amb_nCands_eq (m : CandMap) (vid : Int) (hnd : (m.map Prod.fst).Nodup)
    (a : AmbRow) (ha : a ∈ ambRows m) (hid : a.pickleId = vid) :
    a.nCandidates = candCount vid m := by
  unfold ambRows at ha
  rw [List.mem_flatMap] at ha
  obtain ⟨e, he, hae⟩ := ha
  have hem : e ∈ m := (List.mergeSort_perm m _).mem_iff.mp he
  obtain ⟨hpid, hnc, -⟩ := mem_emit_amb e.1 e.2 a hae
  have hevid : e.1 = vid := by rw [← hpid, hid]
  have hlook : assocLookup vid m = some e.2 := by
    rw [← hevid]
    exact assocLookup_of_mem_nodup e.1 e.2 m (by simpa using hem) hnd
  rw [hnc]
  simp [candCount, hlook]

theorem emitted_total_aux (m : CandMap) :
    (m.map fun e => (emitEntry e.1 e.2).1.length).sum +
      (m.map fun e => (emitEntry e.1 e.2).2.length).sum = totalCands m := by
  induction m with
  | nil => simp [totalCands]
  | cons e rest ih =>
    obtain ⟨v, inner⟩ := e
    simp only [totalCands, List.map_cons, List.sum_cons] at ih ⊢
    have hle := length_emit v inner
    omega

theorem emitted_total (m : CandMap) :
    (uniqueRows m).length + (ambRows m).length = totalCands m := by
  unfold uniqueRows ambRows
  rw [length_flatMap, length_flatMap]
  have hperm : ∀ (g : Int × InnerMap → Nat),
      ((sortCandidates m).map g).sum = (m.map g).sum := fun g =>
    List.Perm.sum_eq (List.Perm.map _ (List.mergeSort_perm m _))
  rw [hperm, hperm]
  exact emitted_total_aux m

end EmitLemmas

section OrderLemmas

theorem pairwise_flatMapHelper {α β : Type} (R : β → β → Prop) (f : α → List β) (l : List α)
    (hinner : ∀ a ∈ l, (f a).Pairwise R)
    (hcross : l.Pairwise fun a b => ∀ x ∈ f a, ∀ y ∈ f b, R x y) :
    (l.flatMap f).Pairwise R := by
  show (List.flatten (l.map f)).Pairwise R
  rw [List.pairwise_flatten]
  constructor
  · intro l' hl'
    rw [List.mem_map] at hl'
    obtain ⟨a, ha, rfl⟩ := hl'
    exact hinner a ha
  · rw [List.pairwise_map]
    exact hcross

theorem sorted_sortCandidates (m : CandMap) :
    (sortCandidates m).Pairwise fun e1 e2 => e1.1 ≤ e2.1 := by
  have h := @List.sorted_mergeSort (Int × InnerMap)
    (fun a b => decide (a.1 ≤ b.1))
    (by
      intro a b c hab hbc
      rw [decide_eq_true_iff] at hab hbc ⊢
      omega)
    (by
      intro a b
      rw [Bool.or_eq_true, decide_eq_true_iff, decide_eq_true_iff]
      omega)
    m
  exact h.imp fun hab => of_decide_eq_true hab

theorem strict_sorted_candidates (m : CandMap) (hnd : (m.map Prod.fst).Nodup) :
    (sortCandidates m).Pairwise fun e1 e2 => e1.1 < e2.1 := by
  have hs := sorted_sortCandidates m
  have hne : (sortCandidates m).Pairwise fun e1 e2 => e1.1 ≠ e2.1 := by
    have hnd' : ((sortCandidates m).map Prod.fst).Nodup := by
      have hperm := (List.mergeSort_perm m fun a b => decide (a.1 ≤ b.1)).map Prod.fst
      exact (List.Perm.nodup_iff hperm).mpr hnd
    rw [List.Nodup, List.pairwise_map] at hnd'
    exact hnd'
  exact (hs.and hne).imp fun hab => lt_of_le_of_ne hab.1 hab.2

theorem strict_sorted_inner (inner : InnerMap) (hnd : (inner.map Prod.fst).Nodup) :
    (sortInner inner).Pairwise fun kt1 kt2 => kt1.1 < kt2.1 := by
  have hs := @List.sorted_mergeSort (String × Coord)
    (fun a b => decide (a.1 ≤ b.1))
    (by
      intro a b c hab hbc
      rw [decide_eq_true_iff] at hab hbc ⊢
      exact le_trans hab hbc)
    (by
      intro a b
      rw [Bool.or_eq_true, decide_eq_true_iff, decide_eq_true_iff]
      exact le_total a.1 b.1)
    inner
  have hs' : (sortInner inner).Pairwise fun kt1 kt2 => kt1.1 ≤ kt2.1 :=
    hs.imp fun hab => of_decide_eq_true hab
  have hne : (sortInner inner).Pairwise fun kt1 kt2 => kt1.1 ≠ kt2.1 := by
    have hnd' : ((sortInner inner).map Prod.fst).Nodup := by
      have hperm := (List.mergeSort_perm inner fun a b => decide (a.1 ≤ b.1)).map Prod.fst
      exact (List.Perm.nodup_iff hperm).mpr hnd
    rw [List.Nodup, List.pairwise_map] at hnd'
    exact hnd'
  exact (hs'.and hne).imp fun hab => lt_of_le_of_ne hab.1 hab.2

theorem pairwise_emit_unique (v : Int) (inner : InnerMap) (R : UniqueRow → UniqueRow → Prop) :
    (emitEntry v inner).1.Pairwise R := by
  unfold emitEntry
  split_ifs with hl
  · cases hh : inner.head? with
    | none => simp
    | some kt =>
      obtain ⟨k, c, p, r, a⟩ := kt
      simp
  · simp

theorem pairwise_uniqueRows (m : CandMap) (hnd : (m.map Prod.fst).Nodup) :
    (uniqueRows m).Pairwise fun u1 u2 => u1.pickleId < u2.pickleId := by
  apply pairwise_flatMapHelper
  · intro e _
    exact pairwise_emit_unique e.1 e.2 _
  · exact (strict_sorted_candidates m hnd).imp fun h12 x hx y hy => by
      rw [mem_emit_unique _ _ _ hx, mem_emit_unique _ _ _ hy]
      exact h12

theorem pairwise_emit_amb (v : Int) (inner : InnerMap)
    (hnd : (inner.map Prod.fst).Nodup) :
    (emitEntry v inner).2.Pairwise fun a1 a2 =>
      a1.pickleId < a2.pickleId ∨
        (a1.pickleId = a2.pickleId ∧ a1.chrPosRefAlt < a2.chrPosRefAlt) := by
  unfold emitEntry
  split_ifs with hl
  · cases hh : inner.head? with
    | none => simp
    | some kt =>
      obtain ⟨k, c, p, r, a⟩ := kt
      simp
  · simp only
    rw [List.pairwise_map]
    exact (strict_sorted_inner inner hnd).imp fun h12 => Or.inr ⟨rfl, h12⟩

theorem pairwise_ambRows (m : CandMap) (hwf : wfCandMap m) :
    (ambRows m).Pairwise fun a1 a2 =>
      a1.pickleId < a2.pickleId ∨
        (a1.pickleId = a2.pickleId ∧ a1.chrPosRefAlt < a2.chrPosRefAlt) := by
  apply pairwise_flatMapHelper
  · intro e he
    have hem : e ∈ m := (List.mergeSort_perm m _).mem_iff.mp he
    exact pairwise_emit_amb e.1 e.2 (hwf.2 e hem)
  · exact (strict_sorted_candidates m hwf.1).imp fun h12 x hx y hy => by
      left
      rw [(mem_emit_amb _ _ _ hx).1, (mem_emit_amb _ _ _ hy).1]
      exact h12

theorem mem_uniqueRows_isSome (m : CandMap) (u : UniqueRow) (hu : u ∈ uniqueRows m) :
    (assocLookup u.pickleId m).isSome := by
  unfold uniqueRows at hu
  rw [List.mem_flatMap] at hu
  obtain ⟨e, he, hue⟩ := hu
  have hem : e ∈ m := (List.mergeSort_perm m _).mem_iff.mp he
  rw [mem_emit_unique _ _ _ hue]
  exact assocLookup_isSome_of_mem e.1 e.2 m (by simpa using hem)

theorem mem_ambRows_isSome (m : CandMap) (a : AmbRow) (ha : a ∈ ambRows m) :
    (assocLookup a.pickleId m).isSome := by
  unfold ambRows at ha
  rw [List.mem_flatMap] at ha
  obtain ⟨e, he, hae⟩ := ha
  have hem : e ∈ m := (List.mergeSort_perm m _).mem_iff.mp he
  rw [(mem_emit_amb _ _ _ hae).1]
  exact assocLookup_isSome_of_mem e.1 e.2 m (by simpa using hem)

end OrderLemmas

section ReaderLemmas

theorem setAdd_nodup (n : Int) (acc : List Int) (h : acc.Nodup) : (setAdd n acc).Nodup := by
  unfold setAdd
  split_ifs with hc
  · exact h
  · rw [List.nodup_append]
    refine ⟨h, List.nodup_singleton n, ?_⟩
    intro x hx hx'
    rw [List.mem_singleton] at hx'
    subst hx'
    exact hc (List.elem_iff.mpr hx)

theorem setAdd_length_le (n : Int) (acc : List Int) :
    (setAdd n acc).length ≤ acc.length + 1 := by
  unfold setAdd
  split_ifs with hc
  · omega
  · simp

theorem recordStep_nodup (obj : PickleObj) (acc : List Int) (h : acc.Nodup) :
    (recordStep obj acc).Nodup := by
  cases obj with
  | other => simpa only [recordStep] using h
  | dictObj fields =>
    cases hl : assocLookup "ID" fields with
    | none => simpa only [recordStep, hl] using h
    | some v =>
      cases v with
      | none => simpa only [recordStep, hl] using h
      | some n => simpa only [recordStep, hl] using setAdd_nodup n acc h

theorem recordStep_length_le (obj : PickleObj) (acc : List Int) :
    (recordStep obj acc).length ≤ acc.length + 1 := by
  cases obj with
  | other => simp only [recordStep]; omega
  | dictObj fields =>
    cases hl : assocLookup "ID" fields with
    | none => simp only [recordStep, hl]; omega
    | some v =>
      cases v with
      | none => simp only [recordStep, hl]; omega
      | some n => simpa only [recordStep, hl] using setAdd_length_le n acc

theorem recordStep_skipped (obj : PickleObj) (acc : List Int)
    (h : skippedObj obj = true) : recordStep obj acc = acc := by
  cases obj with
  | other => simp only [recordStep]
  | dictObj fields =>
    cases hl : assocLookup "ID" fields with
    | none => simp only [recordStep, hl]
    | some v =>
      cases v with
      | none => simp only [recordStep, hl]
      | some n =>
        simp only [skippedObj, hl] at h
        exact Bool.noConfusion h

theorem readIdsGo_nodup (maxIds : Int) (stream : List PickleObj) :
    ∀ acc, acc.Nodup → (readIdsGo maxIds acc stream).Nodup := by
  induction stream with
  | nil => intro acc h; exact h
  | cons obj rest ih =>
    intro acc h
    unfold readIdsGo
    split_ifs with hg
    · exact ih _ (recordStep_nodup obj acc h)
    · exact h

theorem readIdsGo_length (maxIds : Int) (stream : List PickleObj) :
    ∀ acc, (acc.length : Int) ≤ maxIds →
      ((readIdsGo maxIds acc stream).length : Int) ≤ maxIds := by
  induction stream with
  | nil => intro acc h; exact h
  | cons obj rest ih =>
    intro acc h
    unfold readIdsGo
    split_ifs with hg
    · apply ih
      have := recordStep_length_le obj acc
      omega
    · exact h

theorem readIdsGo_skip (maxIds : Int) (obj : PickleObj) (rest : List PickleObj)
    (acc : List Int) (h : skippedObj obj = true) :
    readIdsGo maxIds acc (obj :: rest) = readIdsGo maxIds acc rest := by
  by_cases hg : (acc.length : Int) < maxIds
  · show (if (acc.length : Int) < maxIds then readIdsGo maxIds (recordStep obj acc) rest
      else acc) = readIdsGo maxIds acc rest
    rw [if_pos hg, recordStep_skipped obj acc h]
  · show (if (acc.length : Int) < maxIds then readIdsGo maxIds (recordStep obj acc) rest
      else acc) = readIdsGo maxIds acc rest
    rw [if_neg hg]
    cases rest with
    | nil => rfl
    | cons r rs =>
      show acc = if (acc.length : Int) < maxIds then readIdsGo maxIds (recordStep r acc) rs
        else acc
      rw [if_neg hg]

end ReaderLemmas

section Fixtures

/-- A well-formed reference row for identifier 10 (used in witnesses). -/
def rowGood : RefRow := ⟨some "10", some "GRCh38", some "1", some "12345", some "A", some "C"⟩

/-- A second well-formed row for identifier 10 with a different position. -/
def rowGood2 : RefRow := ⟨some "10", some "GRCh38", some "1", some "999", some "A", some "G"⟩

/-- A row on the other assembly (rejected when filtering for GRCh38). -/
def rowGrch37 : RefRow := ⟨some "10", some "GRCh37", some "1", some "12345", some "A", some "C"⟩

/-- A row with an empty assembly field (accepted by the assembly step). -/
def rowEmptyAsm : RefRow := ⟨some "10", some "", some "1", some "12345", some "A", some "C"⟩

/-- A row with lowercase and padded allele fields. -/
def rowLower : RefRow := ⟨some "11", some "GRCh38", some "2", some "99", some " a ", some "t"⟩

/-- A row whose position is the Arabic-Indic digit three (U+0663): Python
`str.isdigit` accepts it, so the filter keeps this row. -/
def rowArabicPos : RefRow := ⟨some "7", some "GRCh38", some "1", some "٣", some "A", some "C"⟩

end Fixtures

section Claims

/-- C1: for every identifier, in the tables emitted from the completed
candidate mapping of a scan: an identifier with exactly one surviving
candidate appears exactly once in the unique table and never in the
ambiguous table; one with N ≥ 2 distinct candidates appears exactly N
times in the ambiguous table, every such row carrying `n_candidates = N`,
and never in the unique table; one with zero candidates appears in
neither. -/
theorem claim_partition_counts (ids : List Int) (cfg : String) (rows : List RefRow)
    (vid : Int) :
    ((uniqueRows (runScan ids cfg rows).candidates).countP fun u => u.pickleId == vid) =
      (if candCount vid (runScan ids cfg rows).candidates = 1 then 1 else 0) ∧
    ((ambRows (runScan ids cfg rows).candidates).countP fun a => a.pickleId == vid) =
      (if 2 ≤ candCount vid (runScan ids cfg rows).candidates then
        candCount vid (runScan ids cfg rows).candidates else 0) ∧
    (((ambRows (runScan ids cfg rows).candidates).filter fun a => a.pickleId == vid).all
      fun a => a.nCandidates == candCount vid (runScan ids cfg rows).candidates) = true := by
  have hwf := wf_runScan ids cfg rows
  refine ⟨countP_uniqueRows_id _ _ hwf.1, countP_ambRows_id _ _ hwf.1, ?_⟩
  rw [List.all_eq_true]
  intro a ha
  rw [List.mem_filter] at ha
  rw [beq_iff_eq]
  exact amb_nCands_eq _ _ hwf.1 a ha.1 (by simpa using ha.2)

/-- C2: scanning the same reference rows in any permutation yields the
same final candidate map for every identifier: the same identifiers are
present, and every (identifier, key) lookup returns the same stored
tuple. -/
theorem claim_scan_order_independent (ids : List Int) (cfg : String)
    (rows rows' : List RefRow) (hperm : rows.Perm rows') :
    (∀ vid, (assocLookup vid (runScan ids cfg rows).candidates).isSome =
            (assocLookup vid (runScan ids cfg rows').candidates).isSome) ∧
    (∀ vid key, candLookup (runScan ids cfg rows).candidates vid key =
                candLookup (runScan ids cfg rows').candidates vid key) := by
  constructor
  · intro vid
    have hiff : ((assocLookup vid (runScan ids cfg rows).candidates).isSome = true) ↔
        ((assocLookup vid (runScan ids cfg rows').candidates).isSome = true) := by
      rw [assocLookup_runScan_isSome, assocLookup_runScan_isSome]
      constructor
      · rintro ⟨r, hr, hk⟩
        exact ⟨r, hperm.mem_iff.mp hr, hk⟩
      · rintro ⟨r, hr, hk⟩
        exact ⟨r, hperm.mem_iff.mpr hr, hk⟩
    exact Bool.coe_iff_coe.mp hiff
  · intro vid key
    cases h1 : candLookup (runScan ids cfg rows).candidates vid key with
    | some t =>
      obtain ⟨r, hr, hpr⟩ := (candLookup_runScan ids cfg rows vid key t).mp h1
      exact ((candLookup_runScan ids cfg rows' vid key t).mpr
        ⟨r, hperm.mem_iff.mp hr, hpr⟩).symm
    | none =>
      cases h2 : candLookup (runScan ids cfg rows').candidates vid key with
      | none => rfl
      | some t =>
        obtain ⟨r, hr, hpr⟩ := (candLookup_runScan ids cfg rows' vid key t).mp h2
        have hcontra := (candLookup_runScan ids cfg rows vid key t).mpr
          ⟨r, hperm.mem_iff.mpr hr, hpr⟩
        rw [h1] at hcontra
        exact Option.noConfusion hcontra

/-- Witness for C2 at a concrete two-row swap. -/
theorem claim_scan_order_independent_witness :
    candLookup (runScan [10] "GRCh38" [rowGood, rowGood2]).candidates 10 "1_12345_A_C" =
      candLookup (runScan [10] "GRCh38" [rowGood2, rowGood]).candidates 10 "1_12345_A_C" :=
  (claim_scan_order_independent [10] "GRCh38" [rowGood, rowGood2] [rowGood2, rowGood]
    (List.Perm.swap rowGood2 rowGood [])).2 10 "1_12345_A_C"

/-- C3 counterexample: the claim as stated ("a position containing any
character that is not an ASCII decimal digit 0-9, including non-ASCII
digit characters, is rejected") is false: the row whose position is the
Arabic-Indic digit three is kept by the filter although its position
contains no ASCII digit at all. -/
theorem claim_position_ascii_counterexample :
    (processRow [7] "GRCh38" rowArabicPos).isSome = true ∧
    ((pyStrip (rowArabicPos.positionVCF.getD "")).data.all
      fun c => decide ('0' ≤ c ∧ c ≤ '9')) = false := by
  constructor
  · decide
  · decide

/-- C3 amended: a row that reaches and passes the position filter has a
trimmed position that is nonempty and consists entirely of characters
with the Python digit property (`str.isdigit`), which includes non-ASCII
decimal digits. -/
theorem claim_position_filter_digits (ids : List Int) (cfg : String) (row : RefRow)
    (vid : Int) (key : String) (t : Coord)
    (h : processRow ids cfg row = some (vid, key, t)) :
    pyIsDigit (pyStrip (row.positionVCF.getD "")) = true :=
  (afterAssembly_inv _ _ _ (processRow_inv _ _ _ _ _ _ h).2.2).2.2.1

/-- Witness for the amended C3 at a kept row. -/
theorem claim_position_filter_digits_witness :
    pyIsDigit (pyStrip (rowGood.positionVCF.getD "")) = true :=
  claim_position_filter_digits [10] "GRCh38" rowGood 10 "1_12345_A_C"
    ("1", "12345", "A", "C") (by decide)

/-- C4: for a wanted row (parsed identifier in the wanted set), if the
configured assembly filter is nonempty and the row's trimmed assembly
field is nonempty and differs from it, the row is rejected; if the row's
assembly field is empty or the filter is empty, the assembly step
accepts the row and processing continues with the later filter stages. -/
theorem claim_assembly_filter (ids : List Int) (cfg : String) (row : RefRow) (vid : Int)
    (hv : row.variationID.bind pyToInt = some vid) (hw : ids.contains vid = true) :
    (cfg ≠ "" → pyStrip (row.assembly.getD "") ≠ "" →
      pyStrip (row.assembly.getD "") ≠ cfg → processRow ids cfg row = none) ∧
    ((pyStrip (row.assembly.getD "") = "" ∨ cfg = "") →
      processRow ids cfg row = (afterAssembly row).map fun kt => (vid, kt.1, kt.2)) := by
  constructor
  · intro h1 h2 h3
    simp only [processRow, hv]
    rw [if_pos hw, if_pos ⟨h1, h2, h3⟩]
  · intro hd
    simp only [processRow, hv]
    rw [if_pos hw, if_neg]
    rintro ⟨hc1, hc2, -⟩
    rcases hd with hd | hd
    · exact hc2 hd
    · exact hc1 hd

/-- Witness for C4: a GRCh37 row is rejected under the GRCh38 filter,
and a row with an empty assembly field proceeds to the later stages. -/
theorem claim_assembly_filter_witness :
    processRow [10] "GRCh38" rowGrch37 = none ∧
    processRow [10] "GRCh38" rowEmptyAsm =
      (afterAssembly rowEmptyAsm).map fun kt => (10, kt.1, kt.2) :=
  ⟨(claim_assembly_filter [10] "GRCh38" rowGrch37 10 (by decide) (by decide)).1
      (by decide) (by decide) (by decide),
   (claim_assembly_filter [10] "GRCh38" rowEmptyAsm 10 (by decide) (by decide)).2
      (Or.inl (by decide))⟩

/-- C5: a kept row's reference and alternate allele fields are, after
trimming, single characters among A, C, G, T up to case (so any
multi-character allele is rejected), and the stored tuple and composite
key use the uppercased alleles. -/
theorem claim_snv_allele_filter (ids : List Int) (cfg : String) (row : RefRow)
    (vid : Int) (key : String) (c p r a : String)
    (h : processRow ids cfg row = some (vid, key, (c, p, r, a))) :
    (pyStrip (row.referenceAllele.getD "") = "A" ∨ pyStrip (row.referenceAllele.getD "") = "a" ∨
     pyStrip (row.referenceAllele.getD "") = "C" ∨ pyStrip (row.referenceAllele.getD "") = "c" ∨
     pyStrip (row.referenceAllele.getD "") = "G" ∨ pyStrip (row.referenceAllele.getD "") = "g" ∨
     pyStrip (row.referenceAllele.getD "") = "T" ∨ pyStrip (row.referenceAllele.getD "") = "t") ∧
    (pyStrip (row.alternateAllele.getD "") = "A" ∨ pyStrip (row.alternateAllele.getD "") = "a" ∨
     pyStrip (row.alternateAllele.getD "") = "C" ∨ pyStrip (row.alternateAllele.getD "") = "c" ∨
     pyStrip (row.alternateAllele.getD "") = "G" ∨ pyStrip (row.alternateAllele.getD "") = "g" ∨
     pyStrip (row.alternateAllele.getD "") = "T" ∨ pyStrip (row.alternateAllele.getD "") = "t") ∧
    r = pyUpper (pyStrip (row.referenceAllele.getD "")) ∧
    a = pyUpper (pyStrip (row.alternateAllele.getD "")) ∧
    (r = "A" ∨ r = "C" ∨ r = "G" ∨ r = "T") ∧
    (a = "A" ∨ a = "C" ∨ a = "G" ∨ a = "T") ∧
    key = c ++ "_" ++ p ++ "_" ++ r ++ "_" ++ a := by
  obtain ⟨-, -, haa⟩ := processRow_inv _ _ _ _ _ _ h
  obtain ⟨ht, hkey, -, href, halt⟩ := afterAssembly_inv _ _ _ haa
  rw [Prod.mk.injEq, Prod.mk.injEq, Prod.mk.injEq] at ht
  obtain ⟨hc, hp, hr, ha⟩ := ht
  have hrefmem := snv_allele_inv _ href
  have haltmem := snv_allele_inv _ halt
  rw [pyStrip_idem] at hrefmem haltmem
  have hrup : (pyUpper (pyStrip (row.referenceAllele.getD "")) = "A" ∨
      pyUpper (pyStrip (row.referenceAllele.getD "")) = "C" ∨
      pyUpper (pyStrip (row.referenceAllele.getD "")) = "G" ∨
      pyUpper (pyStrip (row.referenceAllele.getD "")) = "T") := by
    have hb := snv_upper_acgt _ href
    simpa only [Bool.or_eq_true, beq_iff_eq, or_assoc] using hb
  have haup : (pyUpper (pyStrip (row.alternateAllele.getD "")) = "A" ∨
      pyUpper (pyStrip (row.alternateAllele.getD "")) = "C" ∨
      pyUpper (pyStrip (row.alternateAllele.getD "")) = "G" ∨
      pyUpper (pyStrip (row.alternateAllele.getD "")) = "T") := by
    have hb := snv_upper_acgt _ halt
    simpa only [Bool.or_eq_true, beq_iff_eq, or_assoc] using hb
  refine ⟨hrefmem, haltmem, hr, ha, ?_, ?_, ?_⟩
  · rw [hr]
    exact hrup
  · rw [ha]
    exact haup
  · exact hkey

/-- Witness for C5 at a row with lowercase, padded alleles. -/
theorem claim_snv_allele_filter_witness :
    "A" = pyUpper (pyStrip (rowLower.referenceAllele.getD "")) ∧
    ("A" = "A" ∨ "A" = "C" ∨ "A" = "G" ∨ "A" = "T") :=
  ⟨(claim_snv_allele_filter [11] "GRCh38" rowLower 11 "2_99_A_T" "2" "99" "A" "T"
      (by decide)).2.2.1,
   (claim_snv_allele_filter [11] "GRCh38" rowLower 11 "2_99_A_T" "2" "99" "A" "T"
      (by decide)).2.2.2.2.1⟩

/-- C6: every stored candidate comes from some scanned row that passed
every filter and whose parsed VariationID equals the identifier it is
stored under, that identifier being in the wanted set; consequently
every identifier appearing in either output table is in the wanted
set. -/
theorem claim_provenance (ids : List Int) (cfg : String) (rows : List RefRow)
    (vid : Int) (key : String) (t : Coord) :
    (candLookup (runScan ids cfg rows).candidates vid key = some t →
      ∃ r, r ∈ rows ∧ processRow ids cfg r = some (vid, key, t) ∧
        r.variationID.bind pyToInt = some vid ∧ ids.contains vid = true) ∧
    ((uniqueRows (runScan ids cfg rows).candidates).all
      fun u => ids.contains u.pickleId) = true ∧
    ((ambRows (runScan ids cfg rows).candidates).all
      fun a => ids.contains a.pickleId) = true := by
  refine ⟨?_, ?_, ?_⟩
  · intro h
    obtain ⟨r, hr, hpr⟩ := (candLookup_runScan _ _ _ _ _ _).mp h
    obtain ⟨h1, h2, -⟩ := processRow_inv _ _ _ _ _ _ hpr
    exact ⟨r, hr, hpr, h1, h2⟩
  · rw [List.all_eq_true]
    intro u hu
    have hs := mem_uniqueRows_isSome _ _ hu
    obtain ⟨r, hr, k', t', hpr⟩ :=
      (assocLookup_runScan_isSome ids cfg rows u.pickleId).mp hs
    exact (processRow_inv _ _ _ _ _ _ hpr).2.1
  · rw [List.all_eq_true]
    intro a ha
    have hs := mem_ambRows_isSome _ _ ha
    obtain ⟨r, hr, k', t', hpr⟩ :=
      (assocLookup_runScan_isSome ids cfg rows a.pickleId).mp hs
    exact (processRow_inv _ _ _ _ _ _ hpr).2.1

/-- Witness for C6: the provenance of a concrete stored candidate. -/
theorem claim_provenance_witness :
    ∃ r, r ∈ [rowGood] ∧
      processRow [10] "GRCh38" r = some (10, "1_12345_A_C", ("1", "12345", "A", "C")) ∧
      r.variationID.bind pyToInt = some 10 ∧ ([10] : List Int).contains 10 = true :=
  (claim_provenance [10] "GRCh38" [rowGood] 10 "1_12345_A_C"
    ("1", "12345", "A", "C")).1 (by decide)

/-- C7: the unique table is emitted in strictly ascending identifier
order, and the ambiguous table in strictly ascending (identifier,
coordinate-key) lexicographic order — identifiers ascending, and the
candidate rows of one identifier in ascending lexical key order (hence
grouped by identifier). -/
theorem claim_emission_order (ids : List Int) (cfg : String) (rows : List RefRow) :
    ((uniqueRows (runScan ids cfg rows).candidates).Pairwise
      fun u1 u2 => u1.pickleId < u2.pickleId) ∧
    ((ambRows (runScan ids cfg rows).candidates).Pairwise
      fun a1 a2 => a1.pickleId < a2.pickleId ∨
        (a1.pickleId = a2.pickleId ∧ a1.chrPosRefAlt < a2.chrPosRefAlt)) := by
  have hwf := wf_runScan ids cfg rows
  exact ⟨pairwise_uniqueRows _ hwf.1, pairwise_ambRows _ hwf⟩

/-- C8: the record source reader returns a set of unique integers of
size at most the configured maximum (for any nonnegative maximum);
records that are skipped (non-mappings, missing `ID`, uncoercible value)
never change the result and never fail; clean end-of-stream terminates
the read normally with the identifiers collected so far. -/
theorem claim_record_reader (maxIds : Int) (stream : List PickleObj) (h : 0 ≤ maxIds) :
    (readIds maxIds stream).Nodup ∧
    ((readIds maxIds stream).length : Int) ≤ maxIds ∧
    (∀ obj rest acc, skippedObj obj = true →
      readIdsGo maxIds acc (obj :: rest) = readIdsGo maxIds acc rest) ∧
    readIds maxIds [] = [] := by
  refine ⟨readIdsGo_nodup maxIds stream [] (List.nodup_nil), ?_, ?_, rfl⟩
  · exact readIdsGo_length maxIds stream [] (by simpa using h)
  · intro obj rest acc hskip
    exact readIdsGo_skip maxIds obj rest acc hskip

/-- Witness for C8 on a stream with malformed records and a bound of 2. -/
theorem claim_record_reader_witness :
    (readIds 2 [PickleObj.dictObj [("ID", some 5)], PickleObj.other,
      PickleObj.dictObj [("x", some 1)], PickleObj.dictObj [("ID", none)],
      PickleObj.dictObj [("ID", some 5)], PickleObj.dictObj [("ID", some 7)],
      PickleObj.dictObj [("ID", some 9)]]).Nodup ∧
    ((readIds 2 [PickleObj.dictObj [("ID", some 5)], PickleObj.other,
      PickleObj.dictObj [("x", some 1)], PickleObj.dictObj [("ID", none)],
      PickleObj.dictObj [("ID", some 5)], PickleObj.dictObj [("ID", some 7)],
      PickleObj.dictObj [("ID", some 9)]]).length : Int) ≤ 2 := by
  have hc := claim_record_reader 2 [PickleObj.dictObj [("ID", some 5)], PickleObj.other,
      PickleObj.dictObj [("x", some 1)], PickleObj.dictObj [("ID", none)],
      PickleObj.dictObj [("ID", some 5)], PickleObj.dictObj [("ID", some 7)],
      PickleObj.dictObj [("ID", some 9)]] (by decide)
  exact ⟨hc.1, hc.2.1⟩

/-- C9: the resolution-and-partition stage is deterministic — two runs
on identical inputs render byte-identical unique and ambiguous output
tables. -/
theorem claim_deterministic (ids ids' : List Int) (cfg cfg' : String)
    (rows rows' : List RefRow)
    (hids : ids = ids') (hcfg : cfg = cfg') (hrows : rows = rows') :
    renderUniqueTable (uniqueRows (runScan ids cfg rows).candidates) =
      renderUniqueTable (uniqueRows (runScan ids' cfg' rows').candidates) ∧
    renderAmbTable (ambRows (runScan ids cfg rows).candidates) =
      renderAmbTable (ambRows (runScan ids' cfg' rows').candidates) := by
  subst hids
  subst hcfg
  subst hrows
  exact ⟨rfl, rfl⟩

/-- Witness for C9 at a concrete input. -/
theorem claim_deterministic_witness :
    renderUniqueTable (uniqueRows (runScan [10] "GRCh38" [rowGood]).candidates) =
      renderUniqueTable (uniqueRows (runScan [10] "GRCh38" [rowGood]).candidates) ∧
    renderAmbTable (ambRows (runScan [10] "GRCh38" [rowGood]).candidates) =
      renderAmbTable (ambRows (runScan [10] "GRCh38" [rowGood]).candidates) :=
  claim_deterministic [10] [10] "GRCh38" "GRCh38" [rowGood] [rowGood] rfl rfl rfl

/-- C10: after every scan, `kept_rows ≤ seen_rows`, and the total number
of data rows written across both output tables is at most `kept_rows`
(per-identifier deduplication only reduces emitted rows). -/
theorem claim_counter_invariants (ids : List Int) (cfg : String) (rows : List RefRow) :
    (runScan ids cfg rows).kept_rows ≤ (runScan ids cfg rows).seen_rows ∧
    (uniqueRows (runScan ids cfg rows).candidates).length +
      (ambRows (runScan ids cfg rows).candidates).length ≤
        (runScan ids cfg rows).kept_rows := by
  obtain ⟨h1, h2⟩ := counters_runScan ids cfg rows
  refine ⟨h2, ?_⟩
  rw [emitted_total]
  exact h1

end Claims

end PickleMap
